import Mathlib

set_option maxHeartbeats 1000000

/-!
Verification of the HyperLogLog sketch in `src/distinct.rs` (with optional
per-bucket deletion counters).  Machine integers are modelled as `ℕ` with
explicit `% 2^64` where u64 wrap-around matters; `f64` register-sum values
are modelled as exact `ℚ`; fallible operations (Rust panics: failed asserts,
out-of-bounds indexing, `unimplemented!`, usize underflow) return `Option`.
The external 64-bit hash is an input to each operation; randomness is an
explicit `rand` input.
-/

/-- Fuelled bit length: `bitlenFuel fuel n` is the bit length of `n` for
`n < 2 ^ fuel`. -/
def bitlenFuel : ℕ → ℕ → ℕ
  | 0, _ => 0
  | fuel + 1, n => if n = 0 then 0 else bitlenFuel fuel (n / 2) + 1

/-- Bit length of a u64 value: for `w < 2^64`,
`w.leading_zeros() = 64 - bitlen64 w`. -/
def bitlen64 (w : ℕ) : ℕ := bitlenFuel 64 w

/-- `HyperLogLog::get_rho(w, max_width)`: computes
`max_width - (64 - w.leading_zeros()) + 1` in u8 arithmetic (`none` models a
panicking underflow, which cannot occur for real hash tails) and asserts
`0 < rho < 65`. -/
def getRho (w maxWidth : ℕ) : Option ℕ :=
  let bl := bitlen64 w
  if maxWidth < bl then none
  else
    let rho := maxWidth - bl + 1
    if 0 < rho ∧ rho < 65 then some rho else none

/-- `HyperLogLog::is_change_power(power)`: asserts `power >= 1` (`none` on
violation), returns `false` when `power >= 64` (`u64::BITS`), otherwise
tests `rand % (2 << (power - 1)) == 0`, i.e. `rand % 2^power == 0` on the
u64 draw. -/
def isChangePower (power rand : ℕ) : Option Bool :=
  if power < 1 then none
  else if 64 ≤ power then some false
  else some (decide (rand % 2 ^ 64 % 2 ^ power = 0))

/-- The counter increment performed by `push`: plain `+1` up to the pivot
128, probabilistic `+1` above it. -/
def counterInc (c rand : ℕ) : Option ℕ :=
  if c ≤ 128 then some (c + 1)
  else
    match isChangePower (c - 128) rand with
    | none => none
    | some b => some (if b then c + 1 else c)

/-- The counter decrement performed by `delete` (only reached when `c ≥ 1`):
plain `-1` up to the pivot 128, probabilistic `-1` above it. -/
def counterDec (c rand : ℕ) : Option ℕ :=
  if c ≤ 128 then some (c - 1)
  else
    match isChangePower (c - 128) rand with
    | none => none
    | some b => some (if b then c - 1 else c)

/-- Sign bit of an IEEE-754 double given as its 64-bit pattern. -/
def f64Sign (b : ℕ) : ℕ := b / 2 ^ 63 % 2

/-- Exponent field of an IEEE-754 double given as its 64-bit pattern. -/
def f64Expo (b : ℕ) : ℕ := b / 2 ^ 52 % 2 ^ 11

/-- Mantissa field of an IEEE-754 double given as its 64-bit pattern. -/
def f64Mant (b : ℕ) : ℕ := b % 2 ^ 52

/-- A 64-bit pattern denotes a normal double. -/
def f64IsNormal (b : ℕ) : Prop := 0 < f64Expo b ∧ f64Expo b < 2047

instance (b : ℕ) : Decidable (f64IsNormal b) := by
  unfold f64IsNormal; infer_instance

/-- Exact rational value of the (normal) double with the given 64-bit
pattern: `(-1)^sign * (1 + mant/2^52) * 2^(expo - 1023)`. -/
def f64ValQ (b : ℕ) : ℚ :=
  (if f64Sign b = 1 then (-1 : ℚ) else 1) * (1 + (f64Mant b : ℚ) / 2 ^ 52) *
    (2 : ℚ) ^ ((f64Expo b : ℤ) - 1023)

/-- The bit pattern `(~0u64).wrapping_sub(r) << 54 >> 2` (logical shifts on
u64) used by the source to encode `2^(-r)` without calling `pow`. -/
def pow2negBits (r : ℕ) : ℕ := (2 ^ 64 - 1 - r) * 2 ^ 54 % 2 ^ 64 / 2 ^ 2

/-- Exact value of `f64::from_bits((~0u64).wrapping_sub(r) << 54 >> 2)`,
the quantity the source adds to and subtracts from the running `sum`. -/
def pow2negQ (r : ℕ) : ℚ := f64ValQ (pow2negBits r)

/-- The sketch state: `p` precision, `alpha` bias constant, `zero` cached
count of zero registers, `sum` cached register sum, `m` the registers,
`counters` the optional per-bucket deletion counters. -/
structure HLL where
  alpha : ℚ
  zero : ℕ
  sum : ℚ
  p : ℕ
  m : List ℕ
  counters : Option (List (List ℕ))
  deriving DecidableEq

/-- `HyperLogLog::get_alpha(p)`: asserts `4 ≤ p ≤ 16` (`none` on violation). -/
def getAlpha (p : ℕ) : Option ℚ :=
  if 4 ≤ p ∧ p ≤ 16 then
    some (if p = 4 then 673 / 1000
          else if p = 5 then 697 / 1000
          else if p = 6 then 709 / 1000
          else (7213 / 10000) / (1 + (1079 / 1000) / 2 ^ p))
  else none

/-- `HyperLogLog::new` / `new_with_counters`.  The sole use of `error_rate`
in the source is the interval assert and the derivation of `p` by f64
`log2`/`ceil` (helper `f64_to_u8` lives outside `src/`); the derived
precision is therefore an input `p`, checked exactly as the source checks
it: `assert!(0 < p && p < 64)` in the constructor and
`assert!(4 <= p && p <= 16)` inside `get_alpha`. -/
def newHLL (er : ℚ) (p : ℕ) (wc : Bool) : Option HLL :=
  if 0 < er ∧ er < 1 then
    if 0 < p ∧ p < 64 then
      match getAlpha p with
      | none => none
      | some a =>
        some { alpha := a, zero := 2 ^ p, sum := ((2 ^ p : ℕ) : ℚ), p := p,
               m := List.replicate (2 ^ p) 0,
               counters := if wc then
                 some (List.replicate (2 ^ p) (List.replicate (64 - p) 0))
               else none }
    else none
  else none

/-- `HyperLogLog::push` on the 64-bit hash `x0` of the pushed value. -/
def pushOp (s : HLL) (x0 rand : ℕ) : Option HLL :=
  let x := x0 % 2 ^ 64
  let idx := x &&& (s.m.length - 1)
  let w := x >>> s.p
  match getRho w (64 - s.p) with
  | none => none
  | some rho =>
    match (s.m[idx]?) with
    | none => none
    | some old =>
      let new := max old rho
      if old = 0 ∧ s.zero = 0 then none
      else
        let zero' := if old = 0 then s.zero - 1 else s.zero
        let sum' := s.sum - (pow2negQ old - pow2negQ new)
        match s.counters with
        | none => some { s with zero := zero', sum := sum', m := s.m.set idx new }
        | some cs =>
          match (cs[idx]?) with
          | none => none
          | some row =>
            match (row[new]?) with
            | none => none
            | some cv =>
              match counterInc cv rand with
              | none => none
              | some cv' =>
                some { s with zero := zero', sum := sum',
                              m := s.m.set idx new,
                              counters := some (cs.set idx (row.set new cv')) }

/-- The demotion scan `for i in (0..ub).rev() { if c[i] > 0 { ... } }` of
`delete`: `some (some i)` for the first hit, `some none` when the loop
falls through, `none` when an index would be out of bounds. -/
def scanBelow (row : List ℕ) : ℕ → Option (Option ℕ)
  | 0 => some none
  | i + 1 =>
    match (row[i]?) with
    | none => none
    | some v => if 0 < v then some (some i) else scanBelow row i

/-- `HyperLogLog::delete` on the 64-bit hash `x0` of the deleted value
(`none` models the `unimplemented!` panic when counters are absent and any
out-of-bounds indexing). -/
def deleteOp (s : HLL) (x0 rand : ℕ) : Option HLL :=
  match s.counters with
  | none => none
  | some cs =>
    let x := x0 % 2 ^ 64
    let idx := x &&& (s.m.length - 1)
    let w := x >>> s.p
    match getRho w (64 - s.p) with
    | none => none
    | some rho =>
      match (cs[idx]?) with
      | none => none
      | some row =>
        match (row[rho]?) with
        | none => none
        | some oldc =>
          if 1 ≤ oldc then
            match counterDec oldc rand with
            | none => none
            | some newc =>
              let row' := row.set rho newc
              if newc = 0 then
                let zero1 := s.zero + (if rho ≠ 0 then 1 else 0)
                let sum1 := s.sum - pow2negQ rho
                match scanBelow row' (rho - 1) with
                | none => none
                | some (some i) =>
                  some { s with zero := zero1 - (if i ≠ 0 then 1 else 0),
                                sum := sum1 + pow2negQ i,
                                m := s.m.set idx i,
                                counters := some (cs.set idx row') }
                | some none =>
                  some { s with zero := zero1, sum := sum1,
                                m := s.m.set idx 0,
                                counters := some (cs.set idx row') }
              else
                some { s with counters := some (cs.set idx row') }
          else some s

/-- Count of zero registers, as recomputed by `union`/`intersect`. -/
def countZeros (l : List ℕ) : ℕ := l.countP (fun r => decide (r = 0))

/-- Register sum, as recomputed by `union`/`intersect` with the bit-packed
power encoder. -/
def pow2Sum (l : List ℕ) : ℚ := (l.map pow2negQ).sum

/-- The per-bucket counter merge of `union`: scan `j` from `max_width - 1`
down to `0`; at the first `j` with `to[j] > 0 || from[j] > 0`, add the
counters (probabilistic `+1` when the u16 sum exceeds 128, with the excess
cast `as u8`), then stop. -/
def rowUnion (rand : ℕ) (tow fr : List ℕ) : ℕ → Option (List ℕ)
  | 0 => some tow
  | j + 1 =>
    match (tow[j]?), (fr[j]?) with
    | some t, some f =>
      if 0 < t ∨ 0 < f then
        if 128 < t + f then
          match isChangePower ((t + f - 128) % 256) rand with
          | none => none
          | some b => some (if b then tow.set j (t + 1) else tow)
        else some (tow.set j (t + f))
      else rowUnion rand tow fr j
    | _, _ => none

/-- `HyperLogLog::union` (scalar path): registers become the pairwise max,
`zero`/`sum` are recomputed from scratch, counters (when `self` has them)
are merged row-wise by `rowUnion` with per-bucket randomness `rands i`. -/
def unionOp (s t : HLL) (rands : ℕ → ℕ) : Option HLL :=
  if t.alpha = s.alpha ∧ t.p = s.p ∧ t.m.length = s.m.length then
    let m' := List.zipWith max s.m t.m
    match s.counters with
    | none => some { s with zero := countZeros m', sum := pow2Sum m', m := m' }
    | some cs =>
      match t.counters with
      | none => none
      | some ds =>
        match (List.range (2 ^ s.p)).mapM (fun i =>
            match (cs[i]?), (ds[i]?) with
            | some tow, some fr => rowUnion (rands i) tow fr (64 - s.p)
            | _, _ => none) with
        | none => none
        | some rows =>
          some { s with zero := countZeros m', sum := pow2Sum m', m := m',
                        counters := some rows }
  else none

/-- The per-bucket counter merge of `intersect`: scan `j` from `0` upward to
`max_width - 1`; at the first `j` with `to[j] > 0 || from[j] > 0`, perform
the probabilistic `+1` when the u16 sum exceeds 128 — and nothing at all
when it does not — then stop. -/
def rowIntersectAux (rand : ℕ) (tow fr : List ℕ) : ℕ → ℕ → Option (List ℕ)
  | _, 0 => some tow
  | j, steps + 1 =>
    match (fr[j]?), (tow[j]?) with
    | some f, some t =>
      if 0 < t ∨ 0 < f then
        if 128 < t + f then
          match isChangePower ((t + f - 128) % 256) rand with
          | none => none
          | some b => some (if b then tow.set j (t + 1) else tow)
        else some tow
      else rowIntersectAux rand tow fr (j + 1) steps
    | _, _ => none

/-- The counter merge of `intersect` over one bucket row, scanning the
indices `0, 1, …, maxWidth - 1` in ascending order. -/
def rowIntersect (rand : ℕ) (tow fr : List ℕ) (maxWidth : ℕ) : Option (List ℕ) :=
  rowIntersectAux rand tow fr 0 maxWidth

/-- `HyperLogLog::intersect` (scalar path): registers become the pairwise
min, `zero`/`sum` are recomputed from scratch, counters are merged row-wise
by `rowIntersect`. -/
def intersectOp (s t : HLL) (rands : ℕ → ℕ) : Option HLL :=
  if t.alpha = s.alpha ∧ t.p = s.p ∧ t.m.length = s.m.length ∧
      t.counters.isSome = s.counters.isSome then
    let m' := List.zipWith min s.m t.m
    match s.counters with
    | none => some { s with zero := countZeros m', sum := pow2Sum m', m := m' }
    | some cs =>
      match t.counters with
      | none => none
      | some ds =>
        match (List.range (2 ^ s.p)).mapM (fun i =>
            match (cs[i]?), (ds[i]?) with
            | some tow, some fr => rowIntersect (rands i) tow fr (64 - s.p)
            | _, _ => none) with
        | none => none
        | some rows =>
          some { s with zero := countZeros m', sum := pow2Sum m', m := m',
                        counters := some rows }
  else none

/-- `HyperLogLog::clear`. -/
def clearOp (s : HLL) : HLL :=
  { s with zero := s.m.length, sum := (s.m.length : ℚ),
           m := List.replicate s.m.length 0,
           counters := s.counters.map (fun cs =>
             cs.map (fun _ => List.replicate (64 - s.p) 0)) }

/-- `HyperLogLog::new_from`: registers and caches reset, but `counters` is a
clone of the source's counters. -/
def newFromOp (s : HLL) : HLL :=
  { alpha := s.alpha, zero := s.m.length, sum := (s.m.length : ℚ), p := s.p,
    m := List.replicate s.m.length 0, counters := s.counters }

/-- States reachable by finite sequences of the public operations,
hashes and random draws being arbitrary. -/
inductive Reach : HLL → Prop where
  | new (er : ℚ) (p : ℕ) (wc : Bool) (s : HLL) :
      newHLL er p wc = some s → Reach s
  | newFrom (s : HLL) : Reach s → Reach (newFromOp s)
  | push (s : HLL) (x rand : ℕ) (s' : HLL) :
      Reach s → pushOp s x rand = some s' → Reach s'
  | del (s : HLL) (x rand : ℕ) (s' : HLL) :
      Reach s → deleteOp s x rand = some s' → Reach s'
  | union (s t : HLL) (rands : ℕ → ℕ) (s' : HLL) :
      Reach s → Reach t → unionOp s t rands = some s' → Reach s'
  | inter (s t : HLL) (rands : ℕ → ℕ) (s' : HLL) :
      Reach s → Reach t → intersectOp s t rands = some s' → Reach s'
  | clear (s : HLL) : Reach s → Reach (clearOp s)

/-- The raw HLL estimate `alpha * m^2 / sum` of `HyperLogLog::ep`. -/
def rawEstimate (s : HLL) : ℚ :=
  s.alpha * ((s.m.length * s.m.length : ℕ) : ℚ) / s.sum

/-- `HyperLogLog::ep`, with the bias lookup abstracted as `biasF`. -/
def epOp (biasF : ℚ → ℚ) (s : HLL) : ℚ :=
  if rawEstimate s ≤ ((5 * s.m.length : ℕ) : ℚ)
  then rawEstimate s - biasF (rawEstimate s)
  else rawEstimate s

/-- The linear-counting estimate `m * ln(m / zero)` of `HyperLogLog::len`,
with `f64::ln` abstracted as `lnF`. -/
def linearCounting (lnF : ℚ → ℚ) (s : HLL) : ℚ :=
  (s.m.length : ℚ) * lnF ((s.m.length : ℚ) / (s.zero : ℚ))

/-- `HyperLogLog::len`, with `f64::ln`, the threshold-table entry
`threshold[p - 4]` and the bias lookup abstracted as parameters. -/
def lenOp (lnF biasF : ℚ → ℚ) (thr : ℚ) (s : HLL) : ℚ :=
  if 0 < s.zero then
    if linearCounting lnF s ≤ thr then linearCounting lnF s else epOp biasF s
  else epOp biasF s

/-- `slice::binary_search_by` as in the Rust standard library (fuelled; the
fuel `len + 1` strictly dominates the loop's iteration count), with `Ok`
and `Err` results merged by `unwrap_or_else(identity)`. -/
def bsearchGo (R : List ℚ) (e : ℚ) : ℕ → ℕ → ℕ → ℕ
  | 0, left, _ => left
  | fuel + 1, left, right =>
    if left < right then
      let mid := left + (right - left) / 2
      let a := R.getD mid 0
      if a < e then bsearchGo R e fuel (mid + 1) right
      else if e < a then bsearchGo R e fuel left mid
      else mid
    else left

/-- The binary-search index computed at the top of `get_nearest_neighbors`. -/
def binarySearchIdx (R : List ℚ) (e : ℚ) : ℕ :=
  bsearchGo R e (R.length + 1) 0 R.length

/-- The window-shrinking loop of `get_nearest_neighbors`
(`while max - min != 6`), fuelled; `none` models non-termination of the
Rust loop, which can only arise when the initial window is narrower
than 6. -/
def shrinkGo (R : List ℚ) (e : ℚ) : ℕ → ℕ → ℕ → Option (ℕ × ℕ)
  | 0, mn, mx => if mx - mn = 6 then some (mn, mx) else none
  | fuel + 1, mn, mx =>
    if mx - mn = 6 then some (mn, mx)
    else
      if 2 * e - R.getD mn 0 > R.getD (mx - 1) 0 then shrinkGo R e fuel (mn + 1) mx
      else shrinkGo R e fuel mn (mx - 1)

/-- `HyperLogLog::get_nearest_neighbors`, returning the half-open window
`[min, max)` into the calibration vector. -/
def nearestNeighbors (e : ℚ) (R : List ℚ) : Option (ℕ × ℕ) :=
  let idx := binarySearchIdx R e
  let mn := if 6 < idx then idx - 6 else 0
  let mx := min (idx + 6) R.length
  shrinkGo R e (mx - mn) mn mx

/-- `HyperLogLog::estimate_bias` over the raw-estimate vector `Rv` and the
parallel bias vector `Bv` (the concrete table contents are external data
assets): asserts the window has width 6, then averages the corresponding
six bias entries. -/
def estimateBias (e : ℚ) (Rv Bv : List ℚ) : Option ℚ :=
  match nearestNeighbors e Rv with
  | none => none
  | some (mn, mx) =>
    if mx - mn = 6 then
      if mx ≤ Bv.length then some (((Bv.drop mn).take (mx - mn)).sum / 6)
      else none
    else none

/-- The plain `p = 4` sketch produced by `new`. -/
def hp4 : HLL :=
  { alpha := 673 / 1000, zero := 2 ^ 4, sum := ((2 ^ 4 : ℕ) : ℚ), p := 4,
    m := List.replicate (2 ^ 4) 0, counters := none }

/-- The counter-carrying `p = 4` sketch produced by `new_with_counters`. -/
def hc4 : HLL :=
  { alpha := 673 / 1000, zero := 2 ^ 4, sum := ((2 ^ 4 : ℕ) : ℚ), p := 4,
    m := List.replicate (2 ^ 4) 0,
    counters := some (List.replicate (2 ^ 4) (List.replicate 60 0)) }

/-- First register of a sketch. -/
def reg0 (s : HLL) : Option ℕ := s.m[0]?

/-- Counter `j` of bucket 0 of a sketch. -/
def ctr0 (s : HLL) (j : ℕ) : Option ℕ :=
  match s.counters with
  | none => none
  | some cs =>
    match (cs[0]?) with
    | none => none
    | some r => r[j]?

/-- The `p = 4` counter sketch after pushing the hash `2^61`
(bucket 0, `rho = 3`). -/
def s13 : HLL :=
  { alpha := hc4.alpha, zero := 15, sum := hc4.sum - (pow2negQ 0 - pow2negQ 3), p := 4,
    m := (List.replicate 16 0).set 0 3,
    counters := some ((List.replicate 16 (List.replicate 60 0)).set 0
      ((List.replicate 60 0).set 3 1)) }

/-- Decidable check of the claimed counter-consistency invariant: for every
register `i`, either `registers[i] = 0` and `counters[i][j] = 0` for all
`j > 0`, or `registers[i]` is the largest `j` with `counters[i][j] > 0`.
Sketches without counters satisfy it vacuously. -/
def counterConsistentB (s : HLL) : Bool :=
  match s.counters with
  | none => true
  | some cs =>
    (List.range s.m.length).all fun i =>
      ((s.m.getD i 0 == 0) &&
        ((List.range (cs.getD i []).length).all fun j =>
          (j == 0) || ((cs.getD i []).getD j 0 == 0)))
      || ((decide (0 < (cs.getD i []).getD (s.m.getD i 0) 0)) &&
        ((List.range (cs.getD i []).length).all fun j =>
          (decide (j ≤ s.m.getD i 0)) || ((cs.getD i []).getD j 0 == 0)))

/-- The plain `p = 4` sketch after pushing a value with hash 0
(`w = 0`, `rho = 61`, bucket 0). -/
def hp61 : HLL :=
  { alpha := hp4.alpha, zero := 15, sum := hp4.sum - (pow2negQ 0 - pow2negQ 61), p := 4,
    m := (List.replicate 16 0).set 0 61, counters := none }

/-- A seven-entry ascending calibration vector used as a concrete instance. -/
def R7 : List ℚ := [1, 2, 3, 4, 5, 6, 7]

/-- A seven-entry bias vector parallel to `R7`. -/
def B7 : List ℚ := [10, 20, 30, 40, 50, 60, 70]

theorem newHLL_hp4 : newHLL (3 / 10) 4 false = some hp4 := by
  unfold newHLL
  rw [if_pos (by norm_num : (0 : ℚ) < 3 / 10 ∧ (3 / 10 : ℚ) < 1)]
  rfl

theorem newHLL_hc4 : newHLL (3 / 10) 4 true = some hc4 := by
  unfold newHLL
  rw [if_pos (by norm_num : (0 : ℚ) < 3 / 10 ∧ (3 / 10 : ℚ) < 1)]
  rfl

/-! ### Helper lemmas -/

theorem pow2negBits_eq : ∀ r : ℕ, r < 65 → pow2negBits r = (1023 - r) * 2 ^ 52 := by decide

theorem newHLL_some_iff (er : ℚ) (p : ℕ) (wc : Bool) :
    (newHLL er p wc = none ↔ ¬(0 < er ∧ er < 1) ∨ ¬(4 ≤ p ∧ p ≤ 16)) ∧
    (∀ s, newHLL er p wc = some s →
      s.p = p ∧ s.m = List.replicate (2 ^ p) 0 ∧ s.zero = 2 ^ p ∧
      s.sum = ((2 ^ p : ℕ) : ℚ) ∧ s.counters.isSome = wc) := by
  unfold newHLL getAlpha
  by_cases her : 0 < er ∧ er < 1
  · rw [if_pos her]
    by_cases hp : 4 ≤ p ∧ p ≤ 16
    · rw [if_pos (show 0 < p ∧ p < 64 by omega), if_pos hp]
      constructor
      · simp [her, hp]
      · intro s hs
        cases hs
        refine ⟨rfl, rfl, rfl, rfl, ?_⟩
        cases wc <;> rfl
    · by_cases hp2 : 0 < p ∧ p < 64
      · rw [if_pos hp2, if_neg hp]
        exact ⟨by simp [hp], fun s hs => by cases hs⟩
      · rw [if_neg hp2]
        exact ⟨by simp [hp], fun s hs => by cases hs⟩
  · rw [if_neg her]
    exact ⟨by simp [her], fun s hs => by cases hs⟩

theorem getRho_le {w mw rho : ℕ} (h : getRho w mw = some rho) : rho ≤ mw + 1 := by
  simp only [getRho] at h
  split at h
  · cases h
  · split at h
    · cases h; omega
    · cases h

theorem scanBelow_some_lt {row : List ℕ} : ∀ {ub i : ℕ},
    scanBelow row ub = some (some i) → i < ub := by
  intro ub
  induction ub with
  | zero => intro i h; simp [scanBelow] at h
  | succ n ih =>
    intro i h
    simp only [scanBelow] at h
    cases hrn : (row[n]?) with
    | none => rw [hrn] at h; cases h
    | some v =>
      rw [hrn] at h
      dsimp only [] at h
      by_cases hv : 0 < v
      · rw [if_pos hv] at h; cases h; omega
      · rw [if_neg hv] at h; exact lt_trans (ih h) (by omega)

theorem mem_of_zipWith {f : ℕ → ℕ → ℕ} {l1 l2 : List ℕ} {r : ℕ}
    (h : r ∈ List.zipWith f l1 l2) : ∃ a ∈ l1, ∃ b ∈ l2, r = f a b := by
  induction l1 generalizing l2 with
  | nil => simp [List.zipWith] at h
  | cons x xs ih =>
    cases l2 with
    | nil => simp [List.zipWith] at h
    | cons y ys =>
      simp only [List.zipWith, List.mem_cons] at h
      rcases h with rfl | h
      · exact ⟨x, List.mem_cons_self x xs, y, List.mem_cons_self y ys, rfl⟩
      · obtain ⟨a, ha, b, hb, rfl⟩ := ih h
        exact ⟨a, List.mem_cons_of_mem _ ha, b, List.mem_cons_of_mem _ hb, rfl⟩

theorem pushOp_m {s : HLL} {x rand : ℕ} {s' : HLL} (h : pushOp s x rand = some s') :
    s'.p = s.p ∧ ∃ idx rho old,
      getRho ((x % 2 ^ 64) >>> s.p) (64 - s.p) = some rho ∧
      (s.m[idx]?) = some old ∧ s'.m = s.m.set idx (max old rho) := by
  simp only [pushOp] at h
  split at h
  · cases h
  next rho hrho =>
    split at h
    · cases h
    next old hold =>
      split at h
      · cases h
      · split at h
        · cases h
          exact ⟨rfl, _, rho, old, hrho, hold, rfl⟩
        next cs hcs =>
          split at h
          · cases h
          next row hrow =>
            split at h
            · cases h
            next cv hcv =>
              split at h
              · cases h
              next cv' hcv' =>
                cases h
                exact ⟨rfl, _, rho, old, hrho, hold, rfl⟩

theorem deleteOp_m {s : HLL} {x rand : ℕ} {s' : HLL} (h : deleteOp s x rand = some s') :
    s'.p = s.p ∧ (s'.m = s.m ∨ ∃ idx rho,
      getRho ((x % 2 ^ 64) >>> s.p) (64 - s.p) = some rho ∧
      (s'.m = s.m.set idx 0 ∨ ∃ i, i < rho - 1 ∧ s'.m = s.m.set idx i)) := by
  simp only [deleteOp] at h
  split at h
  · cases h
  next cs hcs =>
    split at h
    · cases h
    next rho hrho =>
      split at h
      · cases h
      next row hrow =>
        split at h
        · cases h
        next oldc holdc =>
          split at h
          · split at h
            · cases h
            next newc hnewc =>
              split at h
              · split at h
                · cases h
                next i hscan =>
                  cases h
                  exact ⟨rfl, Or.inr ⟨_, rho, hrho,
                    Or.inr ⟨i, scanBelow_some_lt hscan, rfl⟩⟩⟩
                next hscan =>
                  cases h
                  exact ⟨rfl, Or.inr ⟨_, rho, hrho, Or.inl rfl⟩⟩
              · cases h
                exact ⟨rfl, Or.inl rfl⟩
          · cases h
            exact ⟨rfl, Or.inl rfl⟩

theorem unionOp_m {s t : HLL} {rands : ℕ → ℕ} {s' : HLL}
    (h : unionOp s t rands = some s') :
    s'.p = s.p ∧ t.p = s.p ∧ s'.m = List.zipWith max s.m t.m := by
  simp only [unionOp] at h
  split at h
  next hcond =>
    split at h
    · cases h; exact ⟨rfl, hcond.2.1, rfl⟩
    next cs hcs =>
      split at h
      · cases h
      next ds hds =>
        split at h
        · cases h
        next rows hrows =>
          cases h; exact ⟨rfl, hcond.2.1, rfl⟩
  · cases h

theorem intersectOp_m {s t : HLL} {rands : ℕ → ℕ} {s' : HLL}
    (h : intersectOp s t rands = some s') :
    s'.p = s.p ∧ t.p = s.p ∧ s'.m = List.zipWith min s.m t.m := by
  simp only [intersectOp] at h
  split at h
  next hcond =>
    split at h
    · cases h; exact ⟨rfl, hcond.2.1, rfl⟩
    next cs hcs =>
      split at h
      · cases h
      next ds hds =>
        split at h
        · cases h
        next rows hrows =>
          cases h; exact ⟨rfl, hcond.2.1, rfl⟩
  · cases h

/-! ### Claim theorems -/

/-- C3 (amended): in every state reachable by a finite sequence of public
operations, every register value satisfies `0 ≤ registers[i] ≤ 64 - p + 1`
(the upper bound `64 - p` of the claim is raised by one: `get_rho` yields
`64 - p + 1` when the hash tail `w` is zero, and `push` stores it). -/
theorem register_range_reachable (s : HLL) (hs : Reach s) :
    ∀ r ∈ s.m, r ≤ 64 - s.p + 1 := by
  induction hs with
  | new er p wc s0 h =>
    obtain ⟨hp, hm, -, -, -⟩ := (newHLL_some_iff er p wc).2 s0 h
    intro r hr
    rw [hm] at hr
    rw [List.eq_of_mem_replicate hr]
    omega
  | newFrom s0 hs0 ih =>
    intro r hr
    simp only [newFromOp] at hr
    rw [List.eq_of_mem_replicate hr]
    omega
  | push s0 x rand s' hs0 heq ih =>
    obtain ⟨hp, idx, rho, old, hrho, hold, hm⟩ := pushOp_m heq
    intro r hr
    rw [hm] at hr
    rw [hp]
    rcases List.mem_or_eq_of_mem_set hr with hmem | rfl
    · exact ih r hmem
    · exact max_le (ih old (List.getElem?_mem hold)) (getRho_le hrho)
  | del s0 x rand s' hs0 heq ih =>
    obtain ⟨hp, hcase⟩ := deleteOp_m heq
    intro r hr
    rw [hp]
    rcases hcase with hm | ⟨idx, rho, hrho, hm | ⟨i, hi, hm⟩⟩
    · rw [hm] at hr
      exact ih r hr
    · rw [hm] at hr
      rcases List.mem_or_eq_of_mem_set hr with hmem | rfl
      · exact ih r hmem
      · omega
    · rw [hm] at hr
      rcases List.mem_or_eq_of_mem_set hr with hmem | rfl
      · exact ih r hmem
      · have := getRho_le hrho
        omega
  | union s0 t0 rands s' hs0 ht0 heq ihs iht =>
    obtain ⟨hp, htp, hm⟩ := unionOp_m heq
    intro r hr
    rw [hm] at hr
    obtain ⟨a, ha, b, hb, rfl⟩ := mem_of_zipWith hr
    rw [hp]
    have hbb := iht b hb
    rw [htp] at hbb
    exact max_le (ihs a ha) hbb
  | inter s0 t0 rands s' hs0 ht0 heq ihs iht =>
    obtain ⟨hp, htp, hm⟩ := intersectOp_m heq
    intro r hr
    rw [hm] at hr
    obtain ⟨a, ha, b, hb, rfl⟩ := mem_of_zipWith hr
    rw [hp]
    exact le_trans (min_le_left a b) (ihs a ha)
  | clear s0 hs0 ih =>
    intro r hr
    simp only [clearOp] at hr
    rw [List.eq_of_mem_replicate hr]
    omega

theorem register_range_reachable_witness : (61 : ℕ) ≤ 64 - hp61.p + 1 :=
  register_range_reachable hp61
    (Reach.push hp4 0 0 hp61 (Reach.new (3 / 10) 4 false hp4 newHLL_hp4) rfl)
    61 (by decide)

/-- C3 (counterexample): the claim's bound `registers[i] ≤ 64 - p` fails on
a reachable state: push a value whose 64-bit hash is 0 into a fresh `p = 4`
sketch; the hash tail `w = 0` gives `rho = 64 - 4 + 1 = 61`, and the
register becomes `61 > 60 = 64 - p`. -/
theorem push_reaches_register_61 :
    newHLL (3 / 10) 4 false = some hp4 ∧
    (pushOp hp4 0 0).bind reg0 = some 61 ∧ 64 - hp4.p = 60 ∧ ¬(61 ≤ 60) :=
  ⟨newHLL_hp4, rfl, rfl, by omega⟩

/-- C10: for every `r ≤ 64`, the bit pattern `((~0u64) - r) << 54 >> 2` is
`(1023 - r) * 2^52` — a normal double with zero mantissa and exponent field
`1023 - r` — whose exact value is `2^(-r)`; being normal, it is the unique
(bit-for-bit) representation of `2^(-r)`. -/
theorem pow2neg_encodes_two_pow_neg (r : ℕ) (h : r ≤ 64) :
    pow2negBits r = (1023 - r) * 2 ^ 52 ∧ f64IsNormal (pow2negBits r) ∧
      pow2negQ r = (1 / 2 : ℚ) ^ r := by
  have hb : pow2negBits r = (1023 - r) * 2 ^ 52 := pow2negBits_eq r (by omega)
  have hlt : 1023 - r < 2 ^ 11 := by norm_num; omega
  have hmul : (1023 - r) * 2 ^ 52 < 2 ^ 63 := by
    have h1 : (1023 - r) * 2 ^ 52 ≤ 1023 * 2 ^ 52 :=
      Nat.mul_le_mul_right _ (by omega)
    calc (1023 - r) * 2 ^ 52 ≤ 1023 * 2 ^ 52 := h1
      _ < 2 ^ 63 := by norm_num
  have hsign : f64Sign (pow2negBits r) = 0 := by
    unfold f64Sign
    rw [hb, Nat.div_eq_of_lt hmul]
  have hexpo : f64Expo (pow2negBits r) = 1023 - r := by
    unfold f64Expo
    rw [hb, Nat.mul_div_cancel _ (by norm_num : 0 < 2 ^ 52),
      Nat.mod_eq_of_lt (by norm_num; omega)]
  have hmant : f64Mant (pow2negBits r) = 0 := by
    unfold f64Mant
    rw [hb]
    exact Nat.mul_mod_left _ _
  refine ⟨hb, ⟨by rw [hexpo]; omega, by rw [hexpo]; omega⟩, ?_⟩
  unfold pow2negQ f64ValQ
  rw [hsign, hexpo, hmant]
  have hcast : ((1023 - r : ℕ) : ℤ) - 1023 = -(r : ℤ) := by
    have : ((1023 - r : ℕ) : ℤ) = 1023 - (r : ℤ) := by
      rw [Nat.cast_sub (by omega : r ≤ 1023)]
      norm_num
    rw [this]
    ring
  rw [hcast]
  norm_num
  rw [one_div, inv_pow]

theorem pow2neg_encodes_two_pow_neg_witness :
    (64 : ℕ) ≤ 64 ∧
      (pow2negBits 64 = (1023 - 64) * 2 ^ 52 ∧ f64IsNormal (pow2negBits 64) ∧
        pow2negQ 64 = (1 / 2 : ℚ) ^ 64) :=
  ⟨le_refl 64, pow2neg_encodes_two_pow_neg 64 (le_refl 64)⟩

/-- C5 (amended): `new(error_rate)` and `new_with_counters(error_rate)`
fail exactly when `error_rate ∉ (0,1)` or the derived precision `p` is not
in `[4, 16]` (the `(0, 64)` check of the constructor is strictly weaker
than the `4 ≤ p ≤ 16` assert inside `get_alpha`); when they succeed the
sketch has all registers 0, `zero = m` and `sum = m`. -/
theorem new_characterization (er : ℚ) (p : ℕ) (wc : Bool) :
    (newHLL er p wc = none ↔ ¬(0 < er ∧ er < 1) ∨ ¬(4 ≤ p ∧ p ≤ 16)) ∧
    (∀ s, newHLL er p wc = some s →
      s.p = p ∧ s.m = List.replicate (2 ^ p) 0 ∧ s.zero = 2 ^ p ∧
      s.sum = ((2 ^ p : ℕ) : ℚ) ∧ s.counters.isSome = wc) :=
  newHLL_some_iff er p wc

theorem new_characterization_witness :
    hc4.p = 4 ∧ hc4.m = List.replicate (2 ^ 4) 0 ∧ hc4.zero = 2 ^ 4 ∧
      hc4.sum = ((2 ^ 4 : ℕ) : ℚ) ∧ hc4.counters.isSome = true :=
  (new_characterization (3 / 10) 4 true).2 hc4 newHLL_hc4

/-- C5 (counterexample): `error_rate = 1/2` lies in `(0,1)` and derives
`p = ⌈2·log2(1.04/0.5)⌉ = 3` (certified by the exact rational bracketing
`2^2 < (1.04/0.5)^2 ≤ 2^3`), which lies in `(0, 64)` — yet construction
fails, because `get_alpha` additionally asserts `4 ≤ p ≤ 16`. -/
theorem new_error_rate_half_fails :
    ((0 : ℚ) < 1 / 2 ∧ (1 / 2 : ℚ) < 1) ∧
    ((2 : ℚ) ^ 2 < (26 / 25 / (1 / 2 : ℚ)) ^ 2 ∧
      (26 / 25 / (1 / 2 : ℚ)) ^ 2 ≤ (2 : ℚ) ^ 3) ∧
    (0 < 3 ∧ 3 < 64) ∧ newHLL (1 / 2) 3 true = none ∧ newHLL (1 / 2) 3 false = none := by
  refine ⟨by norm_num, by constructor <;> norm_num, by omega, ?_, ?_⟩ <;>
    · unfold newHLL
      rw [if_pos (by norm_num : (0 : ℚ) < 1 / 2 ∧ (1 / 2 : ℚ) < 1)]
      rfl

/-- C7 (amended): for a counter `c` strictly above the pivot (`129 ≤ c ≤
255`, so `k = c - 128 ∈ [1, 127]`), the probabilistic increment of `push`
and decrement of `delete` change the counter by exactly 1 iff `k ≤ 63`
(i.e. `c ≤ 191`) and the uniform draw satisfies `rand mod 2^k = 0`; for
`k ≥ 64`, `is_change_power` returns `false` unconditionally, so the claim's
rule `rand mod (2 << (k-1)) == 0` does not govern the update there. -/
theorem morris_counter_update_characterization (c rand : ℕ)
    (h1 : 129 ≤ c) (h2 : c ≤ 255) :
    counterInc c rand =
      some (if c ≤ 191 ∧ rand % 2 ^ 64 % 2 ^ (c - 128) = 0 then c + 1 else c) ∧
    counterDec c rand =
      some (if c ≤ 191 ∧ rand % 2 ^ 64 % 2 ^ (c - 128) = 0 then c - 1 else c) := by
  have hgt : ¬(c ≤ 128) := by omega
  have hge1 : ¬(c - 128 < 1) := by omega
  unfold counterInc counterDec isChangePower
  simp only [if_neg hgt, if_neg hge1]
  by_cases h64 : 64 ≤ c - 128
  · have hcond : ¬(c ≤ 191 ∧ rand % 2 ^ 64 % 2 ^ (c - 128) = 0) := by omega
    simp only [if_pos h64, if_neg hcond]
    exact ⟨rfl, rfl⟩
  · simp only [if_neg h64]
    by_cases hr : rand % 2 ^ 64 % 2 ^ (c - 128) = 0
    · have hcond : c ≤ 191 ∧ rand % 2 ^ 64 % 2 ^ (c - 128) = 0 := ⟨by omega, hr⟩
      simp only [if_pos hcond]
      rw [decide_eq_true hr]
      exact ⟨rfl, rfl⟩
    · have hcond : ¬(c ≤ 191 ∧ rand % 2 ^ 64 % 2 ^ (c - 128) = 0) := fun hx => hr hx.2
      simp only [if_neg hcond]
      rw [decide_eq_false hr]
      exact ⟨rfl, rfl⟩

theorem morris_counter_update_characterization_witness :
    counterInc 129 2 =
      some (if 129 ≤ 191 ∧ 2 % 2 ^ 64 % 2 ^ (129 - 128) = 0 then 129 + 1 else 129) ∧
    counterDec 129 2 =
      some (if 129 ≤ 191 ∧ 2 % 2 ^ 64 % 2 ^ (129 - 128) = 0 then 129 - 1 else 129) :=
  morris_counter_update_characterization 129 2 (by omega) (by omega)

/-- C7 (counterexample): at counter 192 (`k = 64`) with draw `rand = 0`,
the claim's rule `rand mod (2 << (k-1)) == 0` holds (`0 mod 2^64 = 0`), so
the claim demands a change by 1 — but `is_change_power` returns `false` for
every `k ≥ 64` and both the increment and the decrement leave the counter
unchanged. -/
theorem morris_k64_never_fires :
    counterInc 192 0 = some 192 ∧ counterDec 192 0 = some 192 ∧
      0 % 2 ^ 64 % 2 ^ (192 - 128) = 0 ∧
      isChangePower (192 - 128) 0 = some false ∧ (192 : ℕ) ≠ 192 + 1 :=
  ⟨rfl, rfl, rfl, rfl, by omega⟩

/-- C8: `len` returns the linear-counting estimate `h = m * ln(m / zero)`
exactly when `zero > 0` and `h ≤ threshold[p - 4]`; otherwise it computes
the raw estimate `E = alpha * m^2 / sum` and returns `E - bias(E)` when
`E ≤ 5m`, and `E` unchanged when `E > 5m` (`f64::ln`, the threshold entry
and the bias lookup abstracted as parameters over exact rationals). -/
theorem len_branch_characterization (lnF biasF : ℚ → ℚ) (thr : ℚ) (s : HLL) :
    ((0 < s.zero ∧ linearCounting lnF s ≤ thr) →
      lenOp lnF biasF thr s = linearCounting lnF s) ∧
    (¬(0 < s.zero ∧ linearCounting lnF s ≤ thr) →
      lenOp lnF biasF thr s =
        (if rawEstimate s ≤ ((5 * s.m.length : ℕ) : ℚ)
         then rawEstimate s - biasF (rawEstimate s) else rawEstimate s)) := by
  unfold lenOp epOp
  constructor
  · rintro ⟨hz, hh⟩
    rw [if_pos hz, if_pos hh]
  · intro hnot
    by_cases hz : 0 < s.zero
    · rw [if_pos hz, if_neg (fun hh => hnot ⟨hz, hh⟩)]
    · rw [if_neg hz]

theorem len_branch_characterization_witness :
    lenOp id id 100 hp4 = linearCounting id hp4 :=
  (len_branch_characterization id id 100 hp4).1
    ⟨by norm_num [hp4], by norm_num [linearCounting, hp4]⟩

theorem bsearchGo_le (R : List ℚ) (e : ℚ) :
    ∀ fuel left right, left ≤ right → right ≤ R.length →
      bsearchGo R e fuel left right ≤ R.length := by
  intro fuel
  induction fuel with
  | zero =>
    intro left right h1 h2
    simpa only [bsearchGo] using le_trans h1 h2
  | succ n ih =>
    intro left right h1 h2
    simp only [bsearchGo]
    by_cases hlr : left < right
    · rw [if_pos hlr]
      by_cases hc1 : R.getD (left + (right - left) / 2) 0 < e
      · rw [if_pos hc1]
        exact ih _ right (by omega) h2
      · rw [if_neg hc1]
        by_cases hc2 : e < R.getD (left + (right - left) / 2) 0
        · rw [if_pos hc2]
          exact ih left _ (by omega) (by omega)
        · rw [if_neg hc2]
          omega
    · rw [if_neg hlr]
      omega

theorem shrinkGo_spec (R : List ℚ) (e : ℚ) :
    ∀ fuel mn mx, 6 ≤ mx - mn → mx - mn ≤ 6 + fuel →
    ∃ mn' mx', shrinkGo R e fuel mn mx = some (mn', mx') ∧
      mx' - mn' = 6 ∧ mn ≤ mn' ∧ mx' ≤ mx := by
  intro fuel
  induction fuel with
  | zero =>
    intro mn mx hl hu
    have h6 : mx - mn = 6 := by omega
    exact ⟨mn, mx, by simp only [shrinkGo, if_pos h6], h6, le_refl _, le_refl _⟩
  | succ n ih =>
    intro mn mx hl hu
    by_cases h6 : mx - mn = 6
    · exact ⟨mn, mx, by simp only [shrinkGo, if_pos h6], h6, le_refl _, le_refl _⟩
    · by_cases hc : 2 * e - R.getD mn 0 > R.getD (mx - 1) 0
      · obtain ⟨mn', mx', heq, hw, hm1, hm2⟩ := ih (mn + 1) mx (by omega) (by omega)
        refine ⟨mn', mx', ?_, hw, by omega, hm2⟩
        simp only [shrinkGo, if_neg h6, if_pos hc]
        exact heq
      · obtain ⟨mn', mx', heq, hw, hm1, hm2⟩ := ih mn (mx - 1) (by omega) (by omega)
        refine ⟨mn', mx', ?_, hw, hm1, by omega⟩
        simp only [shrinkGo, if_neg h6, if_neg hc]
        exact heq

/-- C9: for any raw estimate `e` and any calibration vector with at least
six entries (the concrete tables are external data), the neighbor window of
`get_nearest_neighbors` — initialized to `[max(0, idx-6), min(|R|, idx+6))`
from the binary-search index `idx` and shrunk one step at a time by the
rule `2e - R[min] > R[max-1] ? min+1 : max-1` — terminates with width
exactly 6 inside the initial window, and `estimate_bias` averages exactly
those six entries of the bias vector. -/
theorem nearest_neighbors_six_window (e : ℚ) (Rv Bv : List ℚ)
    (h6 : 6 ≤ Rv.length) (hB : Rv.length ≤ Bv.length) :
    ∃ mn mx, nearestNeighbors e Rv = some (mn, mx) ∧ mx - mn = 6 ∧
      binarySearchIdx Rv e - 6 ≤ mn ∧
      mx ≤ min (binarySearchIdx Rv e + 6) Rv.length ∧
      estimateBias e Rv Bv = some (((Bv.drop mn).take 6).sum / 6) := by
  have hidx : binarySearchIdx Rv e ≤ Rv.length :=
    bsearchGo_le Rv e _ 0 Rv.length (Nat.zero_le _) (le_refl _)
  have hmge : binarySearchIdx Rv e ≤ min (binarySearchIdx Rv e + 6) Rv.length :=
    le_min (by omega) hidx
  have hm6 : 6 ≤ min (binarySearchIdx Rv e + 6) Rv.length := le_min (by omega) h6
  have hlow : 6 ≤ min (binarySearchIdx Rv e + 6) Rv.length -
      (if 6 < binarySearchIdx Rv e then binarySearchIdx Rv e - 6 else 0) := by
    split <;> omega
  obtain ⟨mn, mx, heq, hw, h1, h2⟩ :=
    shrinkGo_spec Rv e
      (min (binarySearchIdx Rv e + 6) Rv.length -
        (if 6 < binarySearchIdx Rv e then binarySearchIdx Rv e - 6 else 0))
      (if 6 < binarySearchIdx Rv e then binarySearchIdx Rv e - 6 else 0)
      (min (binarySearchIdx Rv e + 6) Rv.length) hlow (by omega)
  have hnn : nearestNeighbors e Rv = some (mn, mx) := heq
  refine ⟨mn, mx, hnn, hw, ?_, h2, ?_⟩
  · refine le_trans ?_ h1
    split <;> omega
  · unfold estimateBias
    rw [hnn]
    have hmxB : mx ≤ Bv.length := le_trans (le_trans h2 (min_le_right _ _)) hB
    dsimp only []
    rw [if_pos hw, if_pos hmxB, hw]

theorem nearest_neighbors_six_window_witness :
    ∃ mn mx, nearestNeighbors (7 / 2 : ℚ) R7 = some (mn, mx) ∧ mx - mn = 6 ∧
      binarySearchIdx R7 (7 / 2 : ℚ) - 6 ≤ mn ∧
      mx ≤ min (binarySearchIdx R7 (7 / 2 : ℚ) + 6) R7.length ∧
      estimateBias (7 / 2 : ℚ) R7 B7 = some (((B7.drop mn).take 6).sum / 6) :=
  nearest_neighbors_six_window (7 / 2) R7 B7 (by simp [R7]) (by simp [R7, B7])

theorem rowIntersectAux_first (rand : ℕ) (tow fr : List ℕ) :
    ∀ steps j k t f, j ≤ k → k < j + steps →
    (tow[k]?) = some t → (fr[k]?) = some f →
    (∀ i, j ≤ i → i < k → (tow[i]?) = some 0 ∧ (fr[i]?) = some 0) →
    (0 < t ∨ 0 < f) →
    rowIntersectAux rand tow fr j steps =
      (if 128 < t + f then
        match isChangePower ((t + f - 128) % 256) rand with
        | none => none
        | some b => some (if b then tow.set k (t + 1) else tow)
      else some tow) := by
  intro steps
  induction steps with
  | zero =>
    intro j k t f h1 h2 _ _ _ _
    omega
  | succ n ih =>
    intro j k t f h1 h2 ht hf h0 hnz
    rcases Nat.eq_or_lt_of_le h1 with heq | hlt
    · subst heq
      simp only [rowIntersectAux]
      rw [hf, ht]
      dsimp only []
      rw [if_pos hnz]
    · have hz := h0 j (le_refl j) hlt
      simp only [rowIntersectAux]
      rw [hz.2, hz.1]
      dsimp only []
      rw [if_neg (by omega : ¬((0 : ℕ) < 0 ∨ (0 : ℕ) < 0))]
      exact ih (j + 1) k t f hlt (by omega) ht hf (fun i hi1 hi2 => h0 i (by omega) hi2) hnz

/-- C6 (amended): in the `intersect` counter merge, scanning `j` upward
from 0, at the first `j` where either side's counter is nonzero the code
changes `to[j]` only when `to[j] + from[j] > 128` (probabilistic `+1` under
the Morris rule) and leaves `to[j]` unchanged when the sum is `≤ 128` — the
claim's exact saturating addition below the pivot does not happen — after
which the scan stops. -/
theorem intersect_row_merge_characterization (rand : ℕ) (tow fr : List ℕ)
    (mw k t f : ℕ) (hk : k < mw)
    (ht : (tow[k]?) = some t) (hf : (fr[k]?) = some f)
    (hzero : ∀ i, i < k → (tow[i]?) = some 0 ∧ (fr[i]?) = some 0)
    (hnz : 0 < t ∨ 0 < f) :
    (t + f ≤ 128 → rowIntersect rand tow fr mw = some tow) ∧
    (∀ b, 128 < t + f → isChangePower ((t + f - 128) % 256) rand = some b →
      rowIntersect rand tow fr mw = some (if b then tow.set k (t + 1) else tow)) := by
  have h := rowIntersectAux_first rand tow fr mw 0 k t f (Nat.zero_le _) (by omega) ht hf
    (fun i _ hi2 => hzero i hi2) hnz
  constructor
  · intro hle
    unfold rowIntersect
    rw [h, if_neg (by omega : ¬(128 < t + f))]
  · intro b hgt hb
    unfold rowIntersect
    rw [h, if_pos hgt, hb]

theorem intersect_row_merge_characterization_witness :
    rowIntersect 1 [0, 5, 0] [0, 0, 0] 3 = some [0, 5, 0] :=
  (intersect_row_merge_characterization 1 [0, 5, 0] [0, 0, 0] 3 1 5 0 (by omega) rfl rfl
    (fun i hi => by
      have hi0 : i = 0 := by omega
      subst hi0
      exact ⟨rfl, rfl⟩) (by omega)).1 (by omega)

/-- C6 (counterexample): intersecting a one-push counter sketch with
itself: bucket 0 has `to[3] = from[3] = 1` at the first nonzero index, the
sum `2` is below the pivot, so the claim's exact saturating add demands
`to[3] = 2` — but the code leaves `to[3] = 1`, since the `≤ 128` case of
`intersect` performs no assignment at all. -/
theorem intersect_no_add_below_pivot :
    pushOp hc4 (2 ^ 61) 0 = some s13 ∧ ctr0 s13 3 = some 1 ∧
    (intersectOp s13 s13 (fun _ => 1)).bind (fun s => ctr0 s 3) = some 1 ∧
    (1 : ℕ) + 1 ≠ 1 := by
  refine ⟨rfl, rfl, ?_, by omega⟩
  unfold intersectOp
  rw [if_pos ⟨rfl, rfl, rfl, rfl⟩]
  rfl

/-- C1 (the code evaluated at the failing input): `p = 4` counter sketch;
push hash `2^60` (`rho = 4`) then hash `2^59` (`rho = 5`), so bucket 0 has
`registers[0] = 5`, `c[4] = 1`, `c[5] = 1`.  Deleting the `rho = 5` element
zeroes `c[5]`; the claim's premise holds (`registers[0] == rho = 5`) and
its scan `c[4], …, c[1]` must stop at `c[4] = 1` and set
`registers[0] = 4` — but the code's loop `for i in (0..rho-1).rev()` starts
at `c[3]`, skips `c[4]`, finds nothing and sets `registers[0] = 0` while
`c[4] = 1` remains. -/
theorem delete_demotion_skips_rho_minus_one :
    ((pushOp hc4 (2 ^ 60) 0).bind fun s1 => pushOp s1 (2 ^ 59) 0).bind reg0 = some 5 ∧
    (((pushOp hc4 (2 ^ 60) 0).bind fun s1 => pushOp s1 (2 ^ 59) 0).bind fun s2 =>
      ctr0 s2 4) = some 1 ∧
    ((((pushOp hc4 (2 ^ 60) 0).bind fun s1 => pushOp s1 (2 ^ 59) 0).bind fun s2 =>
      deleteOp s2 (2 ^ 59) 0).bind reg0) = some 0 ∧
    ((((pushOp hc4 (2 ^ 60) 0).bind fun s1 => pushOp s1 (2 ^ 59) 0).bind fun s2 =>
      deleteOp s2 (2 ^ 59) 0).bind fun s3 => ctr0 s3 4) = some 1 ∧
    (0 : ℕ) ≠ 4 :=
  ⟨rfl, rfl, rfl, rfl, by omega⟩

/-- C2 (the code evaluated at the failing input): `new_from` of a counter
sketch that absorbed one push clones the counters but zeroes the registers,
so the resulting state — reachable by construction, one `push`, `new_from`
— has `registers[0] = 0` yet `counters[0][3] = 1 > 0`, violating the
claimed invariant (which held before the `new_from`). -/
theorem new_from_breaks_counter_consistency :
    ((pushOp hc4 (2 ^ 61) 0).map newFromOp).map counterConsistentB = some false ∧
    ((pushOp hc4 (2 ^ 61) 0).map newFromOp).bind reg0 = some 0 ∧
    ((pushOp hc4 (2 ^ 61) 0).map newFromOp).bind (fun s => ctr0 s 3) = some 1 ∧
    counterConsistentB hc4 = true ∧ counterConsistentB s13 = true :=
  ⟨rfl, rfl, rfl, rfl, rfl⟩

/-- C4 (the code evaluated at the failing input): on a counter sketch, a
hash whose tail `w = x >> p` satisfies `bitlen(w) ≤ 1` (hash 0 gives
`w = 0`, `rho = 64 - p + 1 = 61` for `p = 4`; hash 16 gives `w = 1`,
`rho = 60`) makes `push` index the bucket's counter row of length
`64 - p = 60` at `new ∈ {60, 61}` — out of bounds, a panic — so `push` on
a `new_with_counters` sketch is not total. -/
theorem push_counter_out_of_bounds :
    newHLL (3 / 10) 4 true = some hc4 ∧
    getRho 0 60 = some 61 ∧ getRho 1 60 = some 60 ∧
    (hc4.counters.map fun cs => (cs.getD 0 []).length) = some 60 ∧
    pushOp hc4 0 0 = none ∧ pushOp hc4 16 0 = none :=
  ⟨newHLL_hc4, rfl, rfl, rfl, rfl, rfl⟩
